import Mathlib

/-!
Verification development for miniserve's archive module (`src/archive.rs`).

The module is embedded shallowly:

* Pure metadata lookups (`extension`, `content_type`, `content_encoding`,
  `is_enabled`) are translated directly from the Rust `match` expressions.
* The archive-creation functions (`create_archive`, `tar_gz`, `tar_dir`,
  `tar`, `zip_dir`) are translated as pure functions from a source path, a
  filesystem tree, the symlink policy and a fault-injection record to an
  `Except` result together with the bytes written to the destination sink
  and a trace of finalization events.
* The external crates the module drives (`tar`, `libflate`, `streaming_zip`)
  and the crate's own `errors` module are not part of the given source; they
  are modelled from the specification's words, and each such definition
  carries a doc comment starting with `Modelled from the spec:`.
-/

/-- Bytes are modelled as integers modulo 256. -/
abbrev Byte := Fin 256

/-- Coerce a natural number into a byte (reduction modulo 256). -/
def byteOf (n : Nat) : Byte := ⟨n % 256, Nat.mod_lt _ (by decide)⟩

/-- Model of an operating-system string (`OsStr`): either valid UTF-8 text
or an opaque non-decodable name identified by a numeric tag. -/
inductive OsStr where
  | utf8 (s : String) : OsStr
  | invalid (tag : Nat) : OsStr
deriving DecidableEq, Repr

/-- Model of `OsStr::to_str`: `some` exactly for valid UTF-8 names. -/
def OsStr.to_str : OsStr → Option String
  | .utf8 s => some s
  | .invalid _ => none

/-- Lossy rendering of an `OsStr`, used only inside error messages. -/
def OsStr.lossy : OsStr → String
  | .utf8 s => s
  | .invalid _ => "?"

/-- Model of one component of a Rust `Path`, after the normalization that
`Path::components` performs (`.` components dropped). -/
inductive Component where
  | rootDir : Component
  | parentDir : Component
  | normal (s : OsStr) : Component
deriving DecidableEq, Repr

/-- Decode a path component as text, `none` when not valid UTF-8. -/
def Component.to_str : Component → Option String
  | .rootDir => some "/"
  | .parentDir => some ".."
  | .normal s => s.to_str

/-- Lossy rendering of a path component, used only inside error messages. -/
def Component.render : Component → String
  | .rootDir => "/"
  | .parentDir => ".."
  | .normal s => s.lossy

/-- Model of a Rust `Path`: its normalized component list. -/
structure RustPath where
  components : List Component
deriving DecidableEq, Repr

/-- Model of `Path::file_name`: the final component when it is a normal
component, `none` when the path is empty or ends in `..` or the root. -/
def RustPath.file_name (p : RustPath) : Option OsStr :=
  match p.components.getLast? with
  | some (.normal s) => some s
  | _ => none

/-- Decode every component of a list as text. -/
def renderAll : List Component → Option (List String)
  | [] => some []
  | c :: rest =>
    match c.to_str, renderAll rest with
    | some s, some l => some (s :: l)
    | _, _ => none

/-- Model of `Path::to_str`: the whole path rendered as text, `none` as soon
as any component is not valid UTF-8. -/
def RustPath.to_str (p : RustPath) : Option String :=
  (renderAll p.components).map (String.intercalate "/")

/-- Lossy debug rendering of a path, the model of the `\x7b:?\x7d` formatting
used in `zip_dir`'s error messages. -/
def RustPath.debugStr (p : RustPath) : String :=
  "\"" ++ String.intercalate "/" (p.components.map Component.render) ++ "\""

mutual
/-- Modelled from the spec: a filesystem tree as the directory walk observes
it (§3): regular files with byte contents, symbolic links (whose target tree
is what following the link would reach), and directories. -/
inductive FsTree where
  | file (content : List Byte) : FsTree
  | symlink (target : FsTree) : FsTree
  | dir (entries : FsEntries) : FsTree
/-- Named entry list of a directory, in directory order. -/
inductive FsEntries where
  | nil : FsEntries
  | cons (name : String) (tree : FsTree) (rest : FsEntries) : FsEntries
end

deriving instance DecidableEq for FsTree
deriving instance DecidableEq for FsEntries

/-- Payload of one archive entry: a regular file with its bytes, a directory
marker, or an unresolved symbolic-link record. -/
inductive EntryData where
  | file (content : List Byte) : EntryData
  | dir : EntryData
  | link : EntryData
deriving DecidableEq, Repr

/-- One archive entry: its in-archive path (component list) and payload. -/
structure Entry where
  path : List String
  data : EntryData
deriving DecidableEq, Repr

mutual
/-- Modelled from the spec: the recursive directory walk shared by the TAR
and ZIP writers (§4.2, §4.4): every regular file and subdirectory under the
root becomes an entry whose path is relative to the walked root, prefixed
with the in-archive root name; a symlink is dereferenced when following is
enabled and otherwise stored as a link record. -/
def walkTree (dest : List String) (follow : Bool) : FsTree → List Entry
  | .file c => [⟨dest, .file c⟩]
  | .symlink target => if follow then walkTree dest follow target else [⟨dest, .link⟩]
  | .dir es => ⟨dest, .dir⟩ :: walkEntries dest follow es
/-- Walk of a directory's entry list; each child is walked at `dest ++ [name]`. -/
def walkEntries (dest : List String) (follow : Bool) : FsEntries → List Entry
  | .nil => []
  | .cons n t rest => walkTree (dest ++ [n]) follow t ++ walkEntries dest follow rest
end

/-- Modelled from the spec: `tar::Builder::append_dir_all` (§4.2, §4.4 and
the archive-content listings in the source's doc comments) — the walked
tree is placed under the in-archive root name, the root directory itself
appearing as the single top-level entry. -/
def appendDirAll (root : String) (tree : FsTree) (follow : Bool) : List Entry :=
  walkTree [root] follow tree

/-- Model of `actix_web::http::header::ContentEncoding`, restricted to the
variants the module uses. -/
inductive ContentEncoding where
  | Identity : ContentEncoding
  | Gzip : ContentEncoding
deriving DecidableEq, Repr

/-- Model of the `ArchiveMethod` enumeration (variants in source order). -/
inductive ArchiveMethod where
  | TarGz : ArchiveMethod
  | Tar : ArchiveMethod
  | Zip : ArchiveMethod
deriving DecidableEq, Repr

/-- Translation of `ArchiveMethod::extension`. -/
def ArchiveMethod.extension : ArchiveMethod → String
  | .TarGz => "tar.gz"
  | .Tar => "tar"
  | .Zip => "zip"

/-- Translation of `ArchiveMethod::content_type`. -/
def ArchiveMethod.content_type : ArchiveMethod → String
  | .TarGz => "application/gzip"
  | .Tar => "application/tar"
  | .Zip => "application/zip"

/-- Translation of `ArchiveMethod::content_encoding`. -/
def ArchiveMethod.content_encoding : ArchiveMethod → ContentEncoding
  | .TarGz => .Gzip
  | .Tar => .Identity
  | .Zip => .Identity

/-- Translation of `ArchiveMethod::is_enabled`. -/
def ArchiveMethod.is_enabled (m : ArchiveMethod)
    (tar_enabled tar_gz_enabled zip_enabled : Bool) : Bool :=
  match m with
  | .TarGz => tar_gz_enabled
  | .Tar => tar_enabled
  | .Zip => zip_enabled

/-- Modelled from the spec: the crate's `ContextualError` type (its `errors`
module is not part of the given source), restricted to the variants
`archive.rs` constructs (§7): an I/O error with a context string and an
underlying cause (causes are abstracted as numeric identifiers), an
invalid-path error with a message, and an archive-creation wrapper that
attributes a boxed cause to a named stage. -/
inductive ContextualError where
  | IoError (context : String) (cause : Nat) : ContextualError
  | InvalidPathError (msg : String) : ContextualError
  | ArchiveCreationError (stage : String) (cause : ContextualError) : ContextualError
deriving DecidableEq, Repr

/-- Whether a result is an invalid-path error. -/
def isInvalidPath : Except ContextualError Unit → Bool
  | .error (.InvalidPathError _) => true
  | _ => false

/-- Finalization and append events, recorded in execution order to state
the happens-before claims. -/
inductive Event where
  | tarAppend : Event
  | tarFinish : Event
  | gzipFinish : Event
  | zipAdd : Event
  | zipFinish : Event
deriving DecidableEq, Repr

/-- Fault-injection record: each field models the `io::Result` returned by
one fallible external call (`some cause` makes that call fail with the given
underlying cause); `written` models the bytes the failing append had already
flushed to its writer. -/
structure Faults where
  gzipNewFails : Option Nat
  appendFails : Option Nat
  tarFinishFails : Option Nat
  gzipFinishFails : Option Nat
  zipAddFails : Option Nat
  zipFinishFails : Option Nat
  written : List Byte
deriving DecidableEq, Repr

/-- The fault-free run: every external call succeeds. -/
def noFaults : Faults :=
  ⟨none, none, none, none, none, none, []⟩

/-- Bytes of a string (code points reduced modulo 256). -/
def strBytes (s : String) : List Byte :=
  s.data.map (fun c => byteOf c.toNat)

/-- Modelled from the spec: serialization of one TAR entry (§6 "standard
ustar/POSIX tar framing", abbreviated to an injective header-then-data
layout: slash-terminated path components, a separator, a payload tag, the
payload, and a terminator). -/
def serEntry (e : Entry) : List Byte :=
  (e.path.flatMap (fun s => strBytes s ++ [byteOf 47])) ++ [byteOf 0] ++
    (match e.data with
     | .file c => byteOf 1 :: c
     | .dir => [byteOf 2]
     | .link => [byteOf 3]) ++ [byteOf 0]

/-- Modelled from the spec: the TAR byte stream for a list of entries,
before finalization. -/
def tarBody (es : List Entry) : List Byte :=
  es.flatMap serEntry

/-- Modelled from the spec: the end-of-archive trailer `tar::Builder`
writes when finished (§4.2 "end-of-archive padding/trailer", abbreviated). -/
def tarTrailer : List Byte :=
  [byteOf 0, byteOf 0]

/-- Modelled from the spec: the streaming body transform of the
`libflate` gzip encoder (§4.3) — an invertible byte-stream transform that
forwards each byte (shifted) as it arrives, so an empty input produces an
empty output. -/
def gzipBody (bs : List Byte) : List Byte :=
  bs.map (fun b => b + 1)

/-- Modelled from the spec: the trailer the gzip encoder writes when
finalized (§4.3 "write the compression-format trailer", abbreviated). -/
def gzipTrailer : List Byte :=
  [byteOf 0]

/-- Modelled from the spec: gzip decompression of a finalized stream, the
inverse of `gzipBody` followed by `gzipTrailer`. -/
def gzipDecompress (cs : List Byte) : List Byte :=
  cs.dropLast.map (fun b => b + 255)

/-- Model of `streaming_zip::CompressionMode`. -/
inductive CompressionMode where
  | Store : CompressionMode
  | Deflate (level : Nat) : CompressionMode
deriving DecidableEq, Repr

/-- One ZIP entry: a walked entry together with its compression mode. -/
structure ZipEntry where
  entry : Entry
  mode : CompressionMode
deriving DecidableEq, Repr

/-- Modelled from the spec: `streaming_zip::Archive::add_dir_all` (§4.4) —
the same recursive walk as the TAR writer, rooted at the given in-archive
name, with each produced entry tagged with the requested compression mode;
`follow` is the writer's symlink-follow toggle. -/
def zipAddDirAll (name : OsStr) (tree : FsTree) (mode : CompressionMode)
    (follow : Bool) : List ZipEntry :=
  (appendDirAll (name.to_str.getD "") tree follow).map (fun e => ⟨e, mode⟩)

/-- Byte encoding of a compression mode inside the ZIP framing. -/
def modeByte : CompressionMode → Byte
  | .Store => byteOf 4
  | .Deflate l => byteOf (5 + l)

/-- Modelled from the spec: the ZIP byte stream for a list of entries
(§6 "standard ZIP local/central-directory framing", abbreviated), before
finalization. -/
def zipBody (zs : List ZipEntry) : List Byte :=
  zs.flatMap (fun z => serEntry z.entry ++ [modeByte z.mode])

/-- Modelled from the spec: the central-directory trailer
`streaming_zip::Archive::finish` writes (§4.4, abbreviated). -/
def zipTrailer : List Byte :=
  [byteOf 6, byteOf 6]

deriving instance DecidableEq for Except

/-- Result of one archive-creation run: the returned value, the bytes that
reached the destination sink, and the trace of append/finalization events in
execution order. -/
structure RunResult where
  result : Except ContextualError Unit
  sink : List Byte
  trace : List Event
deriving DecidableEq, Repr

/-- Translation of the free function `tar` (archive.rs:148): builds a TAR
stream of `tree` under the in-archive folder `inner_folder`, following
symlinks unless `skip_symlinks` is set; append and finalization failures are
mapped to `IoError`s with the source's context strings. -/
def tar (src_dir : RustPath) (inner_folder : String) (skip_symlinks : Bool)
    (tree : FsTree) (faults : Faults) : RunResult :=
  let follow := !skip_symlinks
  match faults.appendFails with
  | some cause =>
    ⟨.error (.IoError
        ("Failed to append the content of " ++ (src_dir.to_str.getD "file") ++
          " to the TAR archive") cause),
      faults.written, []⟩
  | none =>
    let body := tarBody (appendDirAll inner_folder tree follow)
    match faults.tarFinishFails with
    | some cause =>
      ⟨.error (.IoError "Failed to finish writing the TAR archive" cause),
        body, [.tarAppend]⟩
    | none => ⟨.ok (), body ++ tarTrailer, [.tarAppend, .tarFinish]⟩

/-- Translation of `tar_dir` (archive.rs:127): validates that the source
path has a final component decodable as UTF-8, then delegates to `tar`,
wrapping any error of `tar` in `ArchiveCreationError "tarball"`. -/
def tar_dir (dir : RustPath) (skip_symlinks : Bool) (tree : FsTree)
    (faults : Faults) : RunResult :=
  match dir.file_name with
  | none =>
    ⟨.error (.InvalidPathError "Directory name terminates in \"..\""), [], []⟩
  | some inner_folder =>
    match inner_folder.to_str with
    | none =>
      ⟨.error (.InvalidPathError
          "Directory name contains invalid UTF-8 characters"), [], []⟩
    | some directory =>
      let r := tar dir directory skip_symlinks tree faults
      ⟨r.result.mapError (fun e => .ArchiveCreationError "tarball" e),
        r.sink, r.trace⟩

/-- Translation of `tar_gz` (archive.rs:89): wraps the sink in the gzip
encoder, runs `tar_dir` through it, then finalizes the encoder; the sink
receives the streamed compressed body, plus the gzip trailer on success. -/
def tar_gz (dir : RustPath) (skip_symlinks : Bool) (tree : FsTree)
    (faults : Faults) : RunResult :=
  match faults.gzipNewFails with
  | some cause => ⟨.error (.IoError "GZIP" cause), [], []⟩
  | none =>
    let r := tar_dir dir skip_symlinks tree faults
    match r.result with
    | .error e => ⟨.error e, gzipBody r.sink, r.trace⟩
    | .ok _ =>
      match faults.gzipFinishFails with
      | some cause =>
        ⟨.error (.IoError "GZIP finish" cause), gzipBody r.sink, r.trace⟩
      | none =>
        ⟨.ok (), gzipBody r.sink ++ gzipTrailer, r.trace ++ [.gzipFinish]⟩

/-- Translation of `zip_dir` (archive.rs:205): validates the directory name
and the path text, adds the tree with `add_dir_all` at compression mode
`Deflate 3` and a constant `false` symlink-follow argument (the
`skip_symlinks` parameter is accepted but unused, see the source's TODO),
then finalizes the ZIP stream. -/
def zip_dir (dir : RustPath) (skip_symlinks : Bool) (tree : FsTree)
    (faults : Faults) : RunResult :=
  match dir.file_name with
  | none =>
    ⟨.error (.InvalidPathError
        ("Could not get the directory name of " ++ dir.debugStr)), [], []⟩
  | some dir_name =>
    match dir.to_str with
    | none =>
      ⟨.error (.InvalidPathError
          ("Could not get the path of " ++ dir.debugStr)), [], []⟩
    | some dir_path =>
      match faults.zipAddFails with
      | some cause =>
        ⟨.error (.ArchiveCreationError "ZIP"
            (.IoError ("Failed to append the content of " ++ dir_path ++
                " to the ZIP archive") cause)),
          faults.written, []⟩
      | none =>
        let body := zipBody (zipAddDirAll dir_name tree (.Deflate 3) false)
        match faults.zipFinishFails with
        | some cause =>
          ⟨.error (.ArchiveCreationError "ZIP finish"
              (.IoError "Failed to finish writing to the ZIP archive" cause)),
            body, [.zipAdd]⟩
        | none => ⟨.ok (), body ++ zipTrailer, [.zipAdd, .zipFinish]⟩

/-- Translation of `ArchiveMethod::create_archive` (archive.rs:69):
dispatches to the method's writer. -/
def ArchiveMethod.create_archive (m : ArchiveMethod) (dir : RustPath)
    (skip_symlinks : Bool) (tree : FsTree) (faults : Faults) : RunResult :=
  match m with
  | .TarGz => tar_gz dir skip_symlinks tree faults
  | .Tar => tar_dir dir skip_symlinks tree faults
  | .Zip => zip_dir dir skip_symlinks tree faults

mutual
/-- Whether a tree contains no symbolic link. -/
def noSymlinksT : FsTree → Bool
  | .file _ => true
  | .symlink _ => false
  | .dir es => noSymlinksE es
/-- Whether an entry list contains no symbolic link. -/
def noSymlinksE : FsEntries → Bool
  | .nil => true
  | .cons _ t rest => noSymlinksT t && noSymlinksE rest
end

/-- Names of a directory's entry list, in order. -/
def namesE : FsEntries → List String
  | .nil => []
  | .cons n _ rest => n :: namesE rest

mutual
/-- Whether every directory in the tree has pairwise distinct entry names
(every real filesystem directory does). -/
def distinctT : FsTree → Bool
  | .file _ => true
  | .symlink t => distinctT t
  | .dir es => distinctE es
/-- Distinct-names check of one entry list, recursively. -/
def distinctE : FsEntries → Bool
  | .nil => true
  | .cons n t rest => !(namesE rest).contains n && distinctT t && distinctE rest
end

mutual
/-- Number of directory levels strictly below a node. -/
def innerT : FsTree → Nat
  | .file _ => 0
  | .symlink t => innerT t
  | .dir es => depthE es
/-- Number of directory levels of an entry list (0 when empty). -/
def depthE : FsEntries → Nat
  | .nil => 0
  | .cons _ t rest => max (1 + innerT t) (depthE rest)
end

/-- Membership of a named subtree in an entry list. -/
def memE : FsEntries → String → FsTree → Prop
  | .nil, _, _ => False
  | .cons m u rest, n, t => (m = n ∧ u = t) ∨ memE rest n t

/-- Prepend a path component to an entry's in-archive path. -/
def prepend (n : String) (e : Entry) : Entry :=
  ⟨n :: e.path, e.data⟩

/-- The top-level payload an archive reader sees for a node. -/
def topData : FsTree → EntryData
  | .file c => .file c
  | .symlink _ => .link
  | .dir _ => .dir

/-- The top-level name/payload rows of an entry list, in order. -/
def topList : FsEntries → List (String × EntryData)
  | .nil => []
  | .cons n t rest => (n, topData t) :: topList rest

/-- The walk of the entries directly below a node (empty for a file). -/
def innerWalk (follow : Bool) : FsTree → List Entry
  | .dir es => walkEntries [] follow es
  | _ => []

/-- Modelled from the spec: the rows a standard archive reader lists at the
current level — the entries whose path is a single component. -/
def level (es : List Entry) : List (String × EntryData) :=
  es.filterMap (fun e =>
    match e.path with
    | [n] => some (n, e.data)
    | _ => none)

/-- Modelled from the spec: the entries a standard archive reader places
below the directory named `n` at the current level, with that leading
component stripped. -/
def under (n : String) (es : List Entry) : List Entry :=
  es.filterMap (fun e =>
    match e.path with
    | m :: p :: ps => if m = n then some ⟨p :: ps, e.data⟩ else none
    | _ => none)

mutual
/-- Modelled from the spec: reconstruction of a directory's entry list from
a flat archive listing, as a standard reader does (§8): one level at a time,
recursing below each directory row; `fuel` bounds the recursion depth and
unresolved link rows are skipped. -/
def buildE (fuel : Nat) (es : List Entry) : FsEntries :=
  match fuel with
  | 0 => .nil
  | fuel + 1 => buildLevel fuel es (level es)
termination_by (fuel, 0)
/-- Reconstruction of the rows of one level (see `buildE`). -/
def buildLevel (fuel : Nat) (es : List Entry) :
    List (String × EntryData) → FsEntries
  | [] => .nil
  | (n, .file c) :: rest => .cons n (.file c) (buildLevel fuel es rest)
  | (n, .dir) :: rest =>
    .cons n (.dir (buildE fuel (under n es))) (buildLevel fuel es rest)
  | (_, .link) :: rest => buildLevel fuel es rest
termination_by l => (fuel, l.length + 1)
end

/-- Depth budget for extraction: the longest entry path in the listing. -/
def fuelOf (es : List Entry) : Nat :=
  es.foldr (fun e acc => max e.path.length acc) 0

/-- Modelled from the spec: extraction of an archive listing back into a
directory tree by a standard reader (§8; extraction is a non-goal of the
crate, so no source exists for it). -/
def extract (es : List Entry) : FsTree :=
  .dir (buildE (fuelOf es) es)

/-- Keep only the regular-file entries of a listing. -/
def fileEntries (es : List Entry) : List Entry :=
  es.filter (fun e =>
    match e.data with
    | .file _ => true
    | _ => false)

/-- Render an in-archive path with slash separators. -/
def pathString (e : Entry) : String :=
  String.intercalate "/" e.path

/-- The entry stream a method's container writer serializes: the TAR writers
walk with the caller's symlink policy, the ZIP writer with its hard-coded
`false` follow argument (archive.rs:226). -/
def methodEntries (m : ArchiveMethod) (root : String) (tree : FsTree)
    (skip_symlinks : Bool) : List Entry :=
  match m with
  | .TarGz => appendDirAll root tree (!skip_symlinks)
  | .Tar => appendDirAll root tree (!skip_symlinks)
  | .Zip => appendDirAll root tree false

/-- The container/compression framing each method wraps around its entry
stream. -/
def frameBytes (m : ArchiveMethod) (es : List Entry) : List Byte :=
  match m with
  | .TarGz => gzipBody (tarBody es ++ tarTrailer) ++ gzipTrailer
  | .Tar => tarBody es ++ tarTrailer
  | .Zip => zipBody (es.map (fun e => ⟨e, .Deflate 3⟩)) ++ zipTrailer

/-- The event trace of a successful run of each method. -/
def methodTrace : ArchiveMethod → List Event
  | .TarGz => [.tarAppend, .tarFinish, .gzipFinish]
  | .Tar => [.tarAppend, .tarFinish]
  | .Zip => [.zipAdd, .zipFinish]

/-- Fault record where only the TAR finalization fails. -/
def tarFinishFault (c : Nat) : Faults :=
  ⟨none, none, some c, none, none, none, []⟩

/-- Fault record where only the gzip finalization fails. -/
def gzipFinishFault (c : Nat) : Faults :=
  ⟨none, none, none, some c, none, none, []⟩

/-- Fault record where only the ZIP finalization fails. -/
def zipFinishFault (c : Nat) : Faults :=
  ⟨none, none, none, none, none, some c, []⟩

/-- The 14-byte content of the concrete scenario's files. -/
def c1Content : List Byte :=
  strBytes "Test Hello Yes"

/-- The concrete scenario's directory: files `e`, `f`, `g`. -/
def c1Tree : FsTree :=
  .dir (.cons "e" (.file c1Content)
    (.cons "f" (.file c1Content)
      (.cons "g" (.file c1Content) .nil)))

/-- The expected file entries of the concrete scenario's archive. -/
def c1Entries : List Entry :=
  [⟨["c", "e"], .file c1Content⟩,
   ⟨["c", "f"], .file c1Content⟩,
   ⟨["c", "g"], .file c1Content⟩]

/-- The concrete path `a/b/c` of the scenario. -/
def c1Dir : RustPath :=
  ⟨[.normal (.utf8 "a"), .normal (.utf8 "b"), .normal (.utf8 "c")]⟩

/-- A path whose final component is valid text but which contains a
non-decodable middle component. -/
def badMiddlePath : RustPath :=
  ⟨[.normal (.invalid 0), .normal (.utf8 "c")]⟩


/-- Gzip-finalized streams decompress back to the exact input stream. -/
theorem gzip_roundtrip (bs : List Byte) :
    gzipDecompress (gzipBody bs ++ gzipTrailer) = bs := by
  unfold gzipDecompress gzipBody gzipTrailer
  rw [List.dropLast_concat, List.map_map]
  have h : ((fun b : Byte => b + 255) ∘ fun b : Byte => b + 1) = id := by
    funext b
    show b + 1 + 255 = b
    have h2 : (1 : Byte) + 255 = 0 := by decide
    rw [add_assoc, h2, add_zero]
  rw [h, List.map_id]

/-- A successful `tar_dir` run has appended and finalized the TAR stream,
in that order. -/
theorem tar_dir_ok_trace (dir : RustPath) (skip : Bool) (tree : FsTree)
    (faults : Faults)
    (h : (tar_dir dir skip tree faults).result = .ok ()) :
    (tar_dir dir skip tree faults).trace = [.tarAppend, .tarFinish] := by
  cases h1 : dir.file_name with
  | none => simp [tar_dir, h1] at h
  | some f =>
    cases h2 : f.to_str with
    | none => simp [tar_dir, h1, h2] at h
    | some s =>
      cases h3 : faults.appendFails with
      | some c => simp [tar_dir, tar, h1, h2, h3, Except.mapError] at h
      | none =>
        cases h4 : faults.tarFinishFails with
        | some c => simp [tar_dir, tar, h1, h2, h3, h4, Except.mapError] at h
        | none => simp [tar_dir, tar, h1, h2, h3, h4]

/-- C5: the `ArchiveMethod` metadata lookups are total over the closed
variant set and return exactly the documented extension, content-type and
content-encoding per variant. -/
theorem C5_metadata_lookup_values :
    ArchiveMethod.Tar.extension = "tar" ∧
    ArchiveMethod.TarGz.extension = "tar.gz" ∧
    ArchiveMethod.Zip.extension = "zip" ∧
    ArchiveMethod.Tar.content_type = "application/tar" ∧
    ArchiveMethod.TarGz.content_type = "application/gzip" ∧
    ArchiveMethod.Zip.content_type = "application/zip" ∧
    ArchiveMethod.Tar.content_encoding = .Identity ∧
    ArchiveMethod.TarGz.content_encoding = .Gzip ∧
    ArchiveMethod.Zip.content_encoding = .Identity :=
  ⟨rfl, rfl, rfl, rfl, rfl, rfl, rfl, rfl, rfl⟩

/-- C6: `is_enabled` returns, for each variant, exactly the caller-supplied
flag wired to that variant; in particular with flags
(tar = false, tar_gz = true, zip = true) only `Tar` is disabled. -/
theorem C6_is_enabled_wiring :
    (∀ t g z : Bool,
      ArchiveMethod.Tar.is_enabled t g z = t ∧
      ArchiveMethod.TarGz.is_enabled t g z = g ∧
      ArchiveMethod.Zip.is_enabled t g z = z) ∧
    ArchiveMethod.Tar.is_enabled false true true = false ∧
    ArchiveMethod.TarGz.is_enabled false true true = true ∧
    ArchiveMethod.Zip.is_enabled false true true = true :=
  ⟨fun _ _ _ => ⟨rfl, rfl, rfl⟩, rfl, rfl, rfl⟩

/-- C10: the `skip_symlinks` argument of the ZIP writer has no effect — any
two runs differing only in that flag produce identical results, sink bytes
and traces, because `zip_dir` hands `add_dir_all` the constant `false`. -/
theorem C10_zip_skip_symlinks_no_effect (dir : RustPath) (tree : FsTree)
    (faults : Faults) (s1 s2 : Bool) :
    ArchiveMethod.Zip.create_archive dir s1 tree faults =
      ArchiveMethod.Zip.create_archive dir s2 tree faults := rfl

/-- C3: for every source directory and symlink policy, the TarGz sink bytes
of a fault-free run, gzip-decompressed, are byte-identical to the Tar sink
bytes of the same run. -/
theorem C3_targz_gunzip_eq_tar (dir : RustPath) (skip : Bool) (tree : FsTree) :
    gzipDecompress (ArchiveMethod.TarGz.create_archive dir skip tree noFaults).sink =
      (ArchiveMethod.Tar.create_archive dir skip tree noFaults).sink := by
  show gzipDecompress (tar_gz dir skip tree noFaults).sink =
    (tar_dir dir skip tree noFaults).sink
  cases h1 : dir.file_name with
  | none => simp [tar_gz, tar_dir, noFaults, h1, gzipBody, gzipDecompress]
  | some f =>
    cases h2 : f.to_str with
    | none => simp [tar_gz, tar_dir, noFaults, h1, h2, gzipBody, gzipDecompress]
    | some s =>
      simp [tar_gz, tar_dir, tar, noFaults, h1, h2, Except.mapError]
      exact gzip_roundtrip _

/-- C4: for every archive method, a fault-free run on a directory path with
no final component returns an invalid-path error and writes zero bytes to
the sink. -/
theorem C4_no_final_component_fails_clean (m : ArchiveMethod) (dir : RustPath)
    (skip : Bool) (tree : FsTree) (h : dir.file_name = none) :
    isInvalidPath (m.create_archive dir skip tree noFaults).result = true ∧
    (m.create_archive dir skip tree noFaults).sink = [] := by
  cases m <;>
    simp [ArchiveMethod.create_archive, tar_gz, tar_dir, zip_dir, noFaults, h,
      isInvalidPath, gzipBody]

/-- C4 witness: the path consisting of a lone `..` component has no final
component, and all three methods fail with an invalid-path error and an
empty sink on it. -/
theorem C4_no_final_component_fails_clean_witness :
    (isInvalidPath (ArchiveMethod.Tar.create_archive ⟨[.parentDir]⟩ false (.dir .nil) noFaults).result = true ∧
      (ArchiveMethod.Tar.create_archive ⟨[.parentDir]⟩ false (.dir .nil) noFaults).sink = []) ∧
    (isInvalidPath (ArchiveMethod.TarGz.create_archive ⟨[.parentDir]⟩ false (.dir .nil) noFaults).result = true ∧
      (ArchiveMethod.TarGz.create_archive ⟨[.parentDir]⟩ false (.dir .nil) noFaults).sink = []) ∧
    (isInvalidPath (ArchiveMethod.Zip.create_archive ⟨[.parentDir]⟩ false (.dir .nil) noFaults).result = true ∧
      (ArchiveMethod.Zip.create_archive ⟨[.parentDir]⟩ false (.dir .nil) noFaults).sink = []) :=
  ⟨C4_no_final_component_fails_clean .Tar ⟨[.parentDir]⟩ false (.dir .nil) (by decide),
   C4_no_final_component_fails_clean .TarGz ⟨[.parentDir]⟩ false (.dir .nil) (by decide),
   C4_no_final_component_fails_clean .Zip ⟨[.parentDir]⟩ false (.dir .nil) (by decide)⟩

/-- C7: whenever a TarGz run reports success, its event trace is exactly
append, then TAR finalization, then gzip finalization — so the TAR trailer
was written before the gzip trailer, and both before success was reported. -/
theorem C7_targz_finalization_order (dir : RustPath) (skip : Bool)
    (tree : FsTree) (faults : Faults)
    (h : (ArchiveMethod.TarGz.create_archive dir skip tree faults).result = .ok ()) :
    (ArchiveMethod.TarGz.create_archive dir skip tree faults).trace =
      [.tarAppend, .tarFinish, .gzipFinish] := by
  show (tar_gz dir skip tree faults).trace = _
  replace h : (tar_gz dir skip tree faults).result = .ok () := h
  cases hg : faults.gzipNewFails with
  | some c => simp [tar_gz, hg] at h
  | none =>
    cases hr : (tar_dir dir skip tree faults).result with
    | error e => simp [tar_gz, hg, hr] at h
    | ok u =>
      cases hf : faults.gzipFinishFails with
      | some c => simp [tar_gz, hg, hr, hf] at h
      | none =>
        have ht := tar_dir_ok_trace dir skip tree faults (by simp [hr])
        simp [tar_gz, hg, hr, hf, ht]

/-- C7 witness: a fault-free TarGz run on `a/b/c` succeeds and its trace is
append, TAR finalize, gzip finalize. -/
theorem C7_targz_finalization_order_witness :
    (ArchiveMethod.TarGz.create_archive c1Dir false c1Tree noFaults).trace =
      [.tarAppend, .tarFinish, .gzipFinish] :=
  C7_targz_finalization_order c1Dir false c1Tree noFaults (by decide)

/-- C8: with a valid source path, a gzip-finalization failure, a
TAR-finalization failure and a ZIP-finalization failure each surface as a
stage-specific error carrying the underlying cause, and the three errors are
pairwise distinct. -/
theorem C8_finalization_errors_distinct (dir : RustPath) (skip : Bool)
    (tree : FsTree) (c : Nat) (f : OsStr) (s sp : String)
    (h1 : dir.file_name = some f) (h2 : f.to_str = some s)
    (h3 : dir.to_str = some sp) :
    (tar_gz dir skip tree (gzipFinishFault c)).result =
      .error (.IoError "GZIP finish" c) ∧
    (tar_gz dir skip tree (tarFinishFault c)).result =
      .error (.ArchiveCreationError "tarball"
        (.IoError "Failed to finish writing the TAR archive" c)) ∧
    (zip_dir dir skip tree (zipFinishFault c)).result =
      .error (.ArchiveCreationError "ZIP finish"
        (.IoError "Failed to finish writing to the ZIP archive" c)) ∧
    (ContextualError.IoError "GZIP finish" c ≠
      .ArchiveCreationError "tarball"
        (.IoError "Failed to finish writing the TAR archive" c)) ∧
    (ContextualError.IoError "GZIP finish" c ≠
      .ArchiveCreationError "ZIP finish"
        (.IoError "Failed to finish writing to the ZIP archive" c)) ∧
    (ContextualError.ArchiveCreationError "tarball"
        (.IoError "Failed to finish writing the TAR archive" c) ≠
      .ArchiveCreationError "ZIP finish"
        (.IoError "Failed to finish writing to the ZIP archive" c)) := by
  refine ⟨?_, ?_, ?_, ?_, ?_, ?_⟩
  · simp [tar_gz, tar_dir, tar, gzipFinishFault, h1, h2, Except.mapError]
  · simp [tar_gz, tar_dir, tar, tarFinishFault, h1, h2, Except.mapError]
  · simp [zip_dir, zipFinishFault, h1, h3]
  · intro h
    exact ContextualError.noConfusion h
  · intro h
    exact ContextualError.noConfusion h
  · intro h
    injection h with hs _
    exact absurd hs (by decide)

/-- C8 witness: the stage-specific finalization errors at the concrete path
`a/b/c` with cause 7. -/
theorem C8_finalization_errors_distinct_witness :
    (tar_gz c1Dir false c1Tree (gzipFinishFault 7)).result =
      .error (.IoError "GZIP finish" 7) ∧
    (tar_gz c1Dir false c1Tree (tarFinishFault 7)).result =
      .error (.ArchiveCreationError "tarball"
        (.IoError "Failed to finish writing the TAR archive" 7)) ∧
    (zip_dir c1Dir false c1Tree (zipFinishFault 7)).result =
      .error (.ArchiveCreationError "ZIP finish"
        (.IoError "Failed to finish writing to the ZIP archive" 7)) ∧
    (ContextualError.IoError "GZIP finish" 7 ≠
      .ArchiveCreationError "tarball"
        (.IoError "Failed to finish writing the TAR archive" 7)) ∧
    (ContextualError.IoError "GZIP finish" 7 ≠
      .ArchiveCreationError "ZIP finish"
        (.IoError "Failed to finish writing to the ZIP archive" 7)) ∧
    (ContextualError.ArchiveCreationError "tarball"
        (.IoError "Failed to finish writing the TAR archive" 7) ≠
      .ArchiveCreationError "ZIP finish"
        (.IoError "Failed to finish writing to the ZIP archive" 7)) :=
  C8_finalization_errors_distinct c1Dir false c1Tree 7 (.utf8 "c") "c" "a/b/c"
    (by decide) (by decide) (by decide)

/-- C9 counterexample: on the path whose middle component is not decodable
but whose final component is the valid name `c`, `zip_dir` raises an
invalid-path error even though the final component is present and valid —
refuting the claim that no invalid-path error is raised in that case. -/
theorem C9_counterexample_middle_component :
    badMiddlePath.file_name = some (.utf8 "c") ∧
    (OsStr.utf8 "c").to_str = some "c" ∧
    isInvalidPath (zip_dir badMiddlePath false (.dir .nil) noFaults).result = true := by
  decide

/-- C9 (amended): for every run, `zip_dir` returns an invalid-path error
exactly when the source path's final component is absent or the full source
path is not decodable as valid text. -/
theorem C9_zip_invalid_path_condition (dir : RustPath) (skip : Bool)
    (tree : FsTree) (faults : Faults) :
    isInvalidPath (zip_dir dir skip tree faults).result = true ↔
      (dir.file_name = none ∨ dir.to_str = none) := by
  cases h1 : dir.file_name with
  | none => simp [zip_dir, h1, isInvalidPath]
  | some f =>
    cases h2 : dir.to_str with
    | none => simp [zip_dir, h1, h2, isInvalidPath]
    | some sp =>
      cases h3 : faults.zipAddFails with
      | some c => simp [zip_dir, h1, h2, h3, isInvalidPath]
      | none =>
        cases h4 : faults.zipFinishFails with
        | some c => simp [zip_dir, h1, h2, h3, h4, isInvalidPath]
        | none => simp [zip_dir, h1, h2, h3, h4, isInvalidPath]

/-- Characterization of a fault-free run on a valid source path: every
method succeeds, its sink holds exactly its framing of its entry stream, and
its trace is the method's append/finalize sequence. -/
theorem create_archive_noFaults (m : ArchiveMethod) (dir : RustPath)
    (skip : Bool) (tree : FsTree) (f : OsStr) (s : String)
    (h1 : dir.file_name = some f) (h2 : f.to_str = some s)
    (h3 : dir.to_str.isSome = true) :
    m.create_archive dir skip tree noFaults =
      ⟨.ok (), frameBytes m (methodEntries m s tree skip), methodTrace m⟩ := by
  obtain ⟨sp, hsp⟩ := Option.isSome_iff_exists.mp h3
  cases m
  · show tar_gz dir skip tree noFaults = _
    simp [tar_gz, tar_dir, tar, noFaults, h1, h2, frameBytes, methodEntries,
      methodTrace, Except.mapError]
  · show tar_dir dir skip tree noFaults = _
    simp [tar_dir, tar, noFaults, h1, h2, frameBytes, methodEntries,
      methodTrace, Except.mapError]
  · show zip_dir dir skip tree noFaults = _
    simp [zip_dir, noFaults, h1, hsp, h2, frameBytes, methodEntries,
      methodTrace, zipAddDirAll]

/-- C1: archiving a directory whose final path component is `c` and which
holds files `e`, `f`, `g` with content "Test Hello Yes" yields, for every
method, a successful run whose sink is that method's framing of the entry
stream `c` (the root directory entry), `c/e`, `c/f`, `c/g`; the file
entries are exactly `c/e`, `c/f`, `c/g` with the 14-byte contents, and
every in-archive path is rooted at `c`, never at the absolute source
path. -/
theorem C1_scenario_rooted_entries (dir : RustPath) (skip : Bool)
    (h1 : dir.file_name = some (.utf8 "c")) (h3 : dir.to_str.isSome = true) :
    (∀ follow : Bool,
      appendDirAll "c" c1Tree follow = ⟨["c"], .dir⟩ :: c1Entries ∧
      fileEntries (appendDirAll "c" c1Tree follow) = c1Entries ∧
      (appendDirAll "c" c1Tree follow).all
        (fun e => e.path.head? = some "c") = true) ∧
    c1Entries.map pathString = ["c/e", "c/f", "c/g"] ∧
    c1Entries.map Entry.data = [.file c1Content, .file c1Content, .file c1Content] ∧
    c1Content = strBytes "Test Hello Yes" ∧
    c1Content.length = 14 ∧
    (∀ m : ArchiveMethod,
      (m.create_archive dir skip c1Tree noFaults).result = .ok () ∧
      (m.create_archive dir skip c1Tree noFaults).sink =
        frameBytes m ((⟨["c"], .dir⟩ : Entry) :: c1Entries) ∧
      methodEntries m "c" c1Tree skip = ⟨["c"], .dir⟩ :: c1Entries) := by
  have hme : ∀ m, methodEntries m "c" c1Tree skip =
      (⟨["c"], .dir⟩ : Entry) :: c1Entries := by
    intro m
    cases m <;> cases skip <;> decide
  refine ⟨?_, by decide, by decide, rfl, by decide, ?_⟩
  · intro follow
    cases follow <;> exact ⟨rfl, rfl, rfl⟩
  · intro m
    have h := create_archive_noFaults m dir skip c1Tree (.utf8 "c") "c" h1 rfl h3
    rw [h]
    exact ⟨rfl, by rw [hme], hme m⟩

/-- C1 witness: at the concrete path `a/b/c`, the fault-free Tar run's sink
is the TAR framing of the rooted entry stream. -/
theorem C1_scenario_rooted_entries_witness :
    (ArchiveMethod.Tar.create_archive c1Dir false c1Tree noFaults).sink =
      frameBytes .Tar ((⟨["c"], .dir⟩ : Entry) :: c1Entries) :=
  ((C1_scenario_rooted_entries c1Dir false (by decide) (by decide)).2.2.2.2.2
    .Tar).2.1

mutual
/-- Walking a tree at a longer destination prefixes every produced path. -/
theorem walkTree_shift (x : String) (dest : List String) (follow : Bool) :
    ∀ t : FsTree,
      walkTree (x :: dest) follow t = (walkTree dest follow t).map (prepend x)
  | .file c => rfl
  | .symlink tg => by
    cases hf : follow with
    | true => simpa [walkTree, hf] using walkTree_shift x dest true tg
    | false => simp [walkTree, hf, prepend]
  | .dir es => by
    simp only [walkTree, List.map_cons, walkEntries_shift x dest follow es]
    rfl
/-- Walking an entry list at a longer destination prefixes every path. -/
theorem walkEntries_shift (x : String) (dest : List String) (follow : Bool) :
    ∀ es : FsEntries,
      walkEntries (x :: dest) follow es = (walkEntries dest follow es).map (prepend x)
  | .nil => rfl
  | .cons n t rest => by
    show walkTree (x :: dest ++ [n]) follow t ++ walkEntries (x :: dest) follow rest = _
    rw [List.cons_append, walkTree_shift x (dest ++ [n]) follow t,
      walkEntries_shift x dest follow rest, walkEntries, ← List.map_append]
end

/-- Every entry of a walk started at a one-component destination has that
component as its path head. -/
theorem walkTree_path_head (x : String) (follow : Bool) (t : FsTree)
    (e : Entry) (he : e ∈ walkTree [x] follow t) : ∃ p, e.path = x :: p := by
  rw [show [x] = x :: ([] : List String) from rfl, walkTree_shift] at he
  obtain ⟨e', _, rfl⟩ := List.mem_map.mp he
  exact ⟨e'.path, rfl⟩

/-- Entries walked from an entry list at the empty destination never have an
empty path. -/
theorem walkEntries_path_ne_nil (follow : Bool) :
    ∀ (es : FsEntries) (e : Entry),
      e ∈ walkEntries [] follow es → e.path ≠ []
  | .nil, e, he => by simp [walkEntries] at he
  | .cons n t rest, e, he => by
    rw [walkEntries, List.nil_append, List.mem_append] at he
    cases he with
    | inl h =>
      obtain ⟨p, hp⟩ := walkTree_path_head n follow t e h
      simp [hp]
    | inr h => exact walkEntries_path_ne_nil follow rest e h

/-- A `contains` test on a name list is a membership test. -/
theorem contains_iff_mem (l : List String) (a : String) :
    l.contains a = true ↔ a ∈ l := by
  rw [show l.contains a = l.elem a from rfl]
  exact List.elem_iff

/-- The reader's current-level rows distribute over listing concatenation. -/
theorem level_append (a b : List Entry) :
    level (a ++ b) = level a ++ level b := by
  simp [level, List.filterMap_append]

/-- Entries prefixed with an extra component contribute no current-level
row, provided their original paths are nonempty. -/
theorem level_map_prepend (x : String) :
    ∀ l : List Entry, (∀ e ∈ l, e.path ≠ []) →
      level (l.map (prepend x)) = []
  | [], _ => rfl
  | e :: l, h => by
    cases hp : e.path with
    | nil => exact absurd hp (h e (by simp))
    | cons p ps =>
      have ih := level_map_prepend x l (fun e' he' => h e' (by simp [he']))
      simp [level, prepend, hp, List.filterMap_cons] at ih ⊢
      exact ih

/-- The reader's below-`n` projection distributes over concatenation. -/
theorem under_append (n : String) (a b : List Entry) :
    under n (a ++ b) = under n a ++ under n b := by
  simp [under, List.filterMap_append]

/-- Stripping the freshly prepended component recovers the original
entries, provided their paths are nonempty. -/
theorem under_map_same (n : String) :
    ∀ l : List Entry, (∀ e ∈ l, e.path ≠ []) →
      under n (l.map (prepend n)) = l
  | [], _ => rfl
  | e :: l, h => by
    cases hp : e.path with
    | nil => exact absurd hp (h e (by simp))
    | cons p ps =>
      have ih := under_map_same n l (fun e' he' => h e' (by simp [he']))
      cases e with
      | mk pth d =>
        simp only at hp
        subst hp
        simp [under, prepend, List.filterMap_cons] at ih ⊢
        exact ih

/-- Entries prepended with a different component contribute nothing below
`n`. -/
theorem under_map_other (n m : String) (hmn : m ≠ n) :
    ∀ l : List Entry, under n (l.map (prepend m)) = []
  | [] => rfl
  | e :: l => by
    have ih := under_map_other n m hmn l
    cases hp : e.path with
    | nil => simpa [under, prepend, hp, List.filterMap_cons] using ih
    | cons p ps => simpa [under, prepend, hp, hmn, List.filterMap_cons] using ih

/-- A walk rooted at a different name contributes nothing below `n`. -/
theorem under_walkTree_other (n m : String) (hmn : m ≠ n) (follow : Bool)
    (t : FsTree) : under n (walkTree [m] follow t) = [] := by
  rw [show [m] = m :: ([] : List String) from rfl, walkTree_shift]
  exact under_map_other n m hmn _

/-- The entries below the walk of the node named `n` are exactly the walk of
that node's own entries. -/
theorem under_walkTree_same (n : String) (follow : Bool) :
    ∀ t : FsTree, noSymlinksT t = true →
      under n (walkTree [n] follow t) = innerWalk follow t
  | .file c, _ => rfl
  | .symlink tg, hn => by simp [noSymlinksT] at hn
  | .dir es, _ => by
    show under n (⟨[n], .dir⟩ :: walkEntries [n] follow es) = walkEntries [] follow es
    rw [show [n] = n :: ([] : List String) from rfl, walkEntries_shift]
    simp only [under, List.filterMap_cons]
    exact under_map_same n _ (walkEntries_path_ne_nil follow es)

/-- When `n` names no member of the list, nothing lies below it. -/
theorem under_walkEntries_notMem (n : String) (follow : Bool) :
    ∀ es : FsEntries, ¬ n ∈ namesE es →
      under n (walkEntries [] follow es) = []
  | .nil, _ => rfl
  | .cons m t rest, h => by
    have hmn : m ≠ n := fun heq => h (by simp [namesE, heq])
    have hrest : ¬ n ∈ namesE rest := fun hr => h (by simp [namesE, hr])
    show under n (walkTree ([] ++ [m]) follow t ++ walkEntries [] follow rest) = []
    rw [List.nil_append, under_append, under_walkTree_other n m hmn,
      under_walkEntries_notMem n follow rest hrest, List.append_nil]

/-- A member's name occurs in the name list. -/
theorem memE_mem_names : ∀ (es : FsEntries) (n : String) (t : FsTree),
    memE es n t → n ∈ namesE es
  | .nil, _, _, h => h.elim
  | .cons m u rest, n, t, h => by
    cases h with
    | inl hh => simp [namesE, hh.1.symm]
    | inr hh => simp [namesE, memE_mem_names rest n t hh]

/-- A member's inner depth is bounded by the list's depth. -/
theorem memE_depth : ∀ (es : FsEntries) (n : String) (t : FsTree),
    memE es n t → 1 + innerT t ≤ depthE es
  | .nil, _, _, h => h.elim
  | .cons m u rest, n, t, h => by
    cases h with
    | inl hh =>
      rw [hh.2]
      simp only [depthE]
      omega
    | inr hh =>
      have := memE_depth rest n t hh
      simp only [depthE]
      omega

/-- Under distinct names, the entries a reader finds below the member named
`n` are exactly the walk of that member's own entries. -/
theorem under_walkEntries_mem (follow : Bool) :
    ∀ (es : FsEntries) (n : String) (t : FsTree),
      distinctE es = true → noSymlinksE es = true → memE es n t →
      under n (walkEntries [] follow es) = innerWalk follow t
  | .nil, _, _, _, _, h => h.elim
  | .cons m u rest, n, t, hd, hn, h => by
    simp only [distinctE] at hd
    rw [Bool.and_eq_true, Bool.and_eq_true, Bool.not_eq_true'] at hd
    obtain ⟨⟨hc, hdu⟩, hdrest⟩ := hd
    simp only [noSymlinksE, Bool.and_eq_true] at hn
    obtain ⟨hnu, hnrest⟩ := hn
    show under n (walkTree ([] ++ [m]) follow u ++ walkEntries [] follow rest) = _
    rw [List.nil_append, under_append]
    cases h with
    | inl hh =>
      obtain ⟨hm, hu⟩ := hh
      subst hm
      subst hu
      have hnm : ¬ m ∈ namesE rest := by
        intro hmem
        rw [(contains_iff_mem (namesE rest) m).mpr hmem] at hc
        exact Bool.noConfusion hc
      rw [under_walkTree_same m follow u hnu,
        under_walkEntries_notMem m follow rest hnm, List.append_nil]
    | inr hh =>
      have hmn : m ≠ n := by
        intro heq
        subst heq
        rw [(contains_iff_mem (namesE rest) m).mpr
          (memE_mem_names rest m t hh)] at hc
        exact Bool.noConfusion hc
      rw [under_walkTree_other n m hmn, List.nil_append]
      exact under_walkEntries_mem follow rest n t hdrest hnrest hh

/-- The current-level rows of a rooted walk are the single row of the walked
node. -/
theorem level_walkTree (n : String) (follow : Bool) :
    ∀ t : FsTree, noSymlinksT t = true →
      level (walkTree [n] follow t) = [(n, topData t)]
  | .file c, _ => rfl
  | .symlink tg, hn => by simp [noSymlinksT] at hn
  | .dir es, _ => by
    show level (⟨[n], .dir⟩ :: walkEntries [n] follow es) = [(n, .dir)]
    rw [show [n] = n :: ([] : List String) from rfl, walkEntries_shift]
    have h0 := level_map_prepend n (walkEntries [] follow es)
      (walkEntries_path_ne_nil follow es)
    simp only [level, List.filterMap_cons] at h0 ⊢
    simp [h0]

/-- The current-level rows of an entry-list walk are exactly its top rows. -/
theorem level_walkEntries (follow : Bool) :
    ∀ es : FsEntries, noSymlinksE es = true →
      level (walkEntries [] follow es) = topList es
  | .nil, _ => rfl
  | .cons n t rest, hn => by
    simp only [noSymlinksE, Bool.and_eq_true] at hn
    show level (walkTree ([] ++ [n]) follow t ++ walkEntries [] follow rest) = _
    rw [List.nil_append, level_append, level_walkTree n follow t hn.1,
      level_walkEntries follow rest hn.2]
    rfl

mutual
/-- A reader row reconstructs the walked member it came from: consuming the
row `(n, topData t)` prepends exactly the member `t` to the level's
reconstruction, provided the listing places the walk of `t`'s entries below
`n`. -/
theorem roundT (follow : Bool) :
    ∀ (t : FsTree) (fuel : Nat) (n : String) (ES : List Entry)
      (L : List (String × EntryData)),
      noSymlinksT t = true → distinctT t = true → innerT t ≤ fuel →
      under n ES = innerWalk follow t →
      buildLevel fuel ES ((n, topData t) :: L) =
        .cons n t (buildLevel fuel ES L)
  | .file c, fuel, n, ES, L, _, _, _, _ => by
    simp [topData, buildLevel]
  | .symlink tg, fuel, n, ES, L, hn, _, _, _ => by
    simp [noSymlinksT] at hn
  | .dir es', fuel, n, ES, L, hn, hd, hf, hu => by
    show buildLevel fuel ES ((n, .dir) :: L) = _
    have hb : buildE fuel (under n ES) = es' := by
      rw [hu]
      show buildE fuel (walkEntries [] follow es') = es'
      cases fuel with
      | zero =>
        cases es' with
        | nil => simp [walkEntries, buildE]
        | cons a b c =>
          exfalso
          simp only [innerT, depthE] at hf
          omega
      | succ fuel' =>
        simp only [buildE]
        rw [level_walkEntries follow es' hn]
        exact roundE follow es' fuel' (walkEntries [] follow es') hn hd
          (fun n' t' hm =>
            ⟨by have h5 := memE_depth es' n' t' hm
                have h6 : depthE es' ≤ fuel' + 1 := hf
                omega,
             under_walkEntries_mem follow es' n' t' hd hn hm⟩)
    simp [buildLevel, hb]
/-- The reader's reconstruction of the top rows of a walked entry list is
that entry list. -/
theorem roundE (follow : Bool) :
    ∀ (es2 : FsEntries) (fuel : Nat) (ES : List Entry),
      noSymlinksE es2 = true → distinctE es2 = true →
      (∀ n t, memE es2 n t → innerT t ≤ fuel ∧ under n ES = innerWalk follow t) →
      buildLevel fuel ES (topList es2) = es2
  | .nil, fuel, ES, _, _, _ => by simp [topList, buildLevel]
  | .cons n t rest, fuel, ES, hn, hd, H => by
    obtain ⟨hf, hu⟩ := H n t (Or.inl ⟨rfl, rfl⟩)
    simp only [noSymlinksE, Bool.and_eq_true] at hn
    simp only [distinctE] at hd
    rw [Bool.and_eq_true, Bool.and_eq_true] at hd
    show buildLevel fuel ES ((n, topData t) :: topList rest) = _
    rw [roundT follow t fuel n ES (topList rest) hn.1 hd.1.2 hf hu,
      roundE follow rest fuel ES hn.2 hd.2 (fun n' t' hm => H n' t' (Or.inr hm))]
end

/-- Reconstructing the walk of an entry list with enough fuel recovers the
entry list. -/
theorem buildE_walkEntries (follow : Bool) (es : FsEntries) (fuel : Nat)
    (hn : noSymlinksE es = true) (hd : distinctE es = true)
    (hf : depthE es ≤ fuel) :
    buildE fuel (walkEntries [] follow es) = es := by
  cases fuel with
  | zero =>
    cases es with
    | nil => simp [walkEntries, buildE]
    | cons a b c =>
      exfalso
      simp only [depthE] at hf
      omega
  | succ fuel' =>
    simp only [buildE]
    rw [level_walkEntries follow es hn]
    exact roundE follow es fuel' (walkEntries [] follow es) hn hd
      (fun n' t' hm =>
        ⟨by have h5 := memE_depth es n' t' hm
            omega,
         under_walkEntries_mem follow es n' t' hd hn hm⟩)

/-- Folding the path-length maximum from an arbitrary seed. -/
theorem fuelOf_foldr (x : Nat) :
    ∀ a : List Entry,
      a.foldr (fun e acc => max e.path.length acc) x = max (fuelOf a) x
  | [] => by simp [fuelOf]
  | e :: a => by
    show max e.path.length (a.foldr _ x) = max (fuelOf (e :: a)) x
    rw [fuelOf_foldr x a,
      show fuelOf (e :: a) = max e.path.length (fuelOf a) from rfl,
      Nat.max_assoc]

/-- The fuel bound of a concatenated listing is the maximum of the parts. -/
theorem fuelOf_append (a b : List Entry) :
    fuelOf (a ++ b) = max (fuelOf a) (fuelOf b) := by
  show (a ++ b).foldr _ 0 = _
  rw [List.foldr_append, fuelOf_foldr]
  rfl

mutual
/-- The walk of a symlink-free tree contains a path at least as long as the
destination plus the tree's inner depth. -/
theorem fuelT_bound (follow : Bool) :
    ∀ (t : FsTree) (dest : List String), noSymlinksT t = true →
      dest.length + innerT t ≤ fuelOf (walkTree dest follow t)
  | .file c, dest, _ => by
    show dest.length + 0 ≤ max dest.length 0
    omega
  | .symlink tg, dest, hn => by simp [noSymlinksT] at hn
  | .dir es, dest, hn => by
    show dest.length + depthE es ≤
      max dest.length (fuelOf (walkEntries dest follow es))
    cases fuelE_bound follow es dest hn with
    | inl h => subst h; simp [depthE]
    | inr h => omega
/-- The walk of a symlink-free entry list, when nonempty, contains a path at
least as long as the destination plus the list's depth. -/
theorem fuelE_bound (follow : Bool) :
    ∀ (es : FsEntries) (dest : List String), noSymlinksE es = true →
      es = .nil ∨
        dest.length + depthE es ≤ fuelOf (walkEntries dest follow es)
  | .nil, _, _ => Or.inl rfl
  | .cons n t rest, dest, hn => by
    simp only [noSymlinksE, Bool.and_eq_true] at hn
    refine Or.inr ?_
    show dest.length + max (1 + innerT t) (depthE rest) ≤
      fuelOf (walkTree (dest ++ [n]) follow t ++ walkEntries dest follow rest)
    rw [fuelOf_append]
    have h1 := fuelT_bound follow t (dest ++ [n]) hn.1
    rw [List.length_append, List.length_singleton] at h1
    cases fuelE_bound follow rest dest hn.2 with
    | inl h => subst h; simp only [depthE]; omega
    | inr h => omega
end

/-- Extracting the walk of a symlink-free, distinct-name directory recovers
the directory, rooted at the in-archive root name. -/
theorem extract_walk (follow : Bool) (r : String) (es0 : FsEntries)
    (hn : noSymlinksE es0 = true) (hd : distinctE es0 = true) :
    extract (appendDirAll r (.dir es0) follow) =
      .dir (.cons r (.dir es0) .nil) := by
  show extract (⟨[r], .dir⟩ :: walkEntries [r] follow es0) = _
  have hshift : walkEntries [r] follow es0 =
      (walkEntries [] follow es0).map (prepend r) := by
    rw [show [r] = r :: ([] : List String) from rfl, walkEntries_shift]
  have hF : 1 + depthE es0 ≤
      fuelOf ((⟨[r], .dir⟩ : Entry) :: walkEntries [r] follow es0) := by
    show 1 + depthE es0 ≤ max 1 (fuelOf (walkEntries [r] follow es0))
    cases fuelE_bound follow es0 [r] hn with
    | inl h => subst h; simp [depthE]
    | inr h =>
      rw [List.length_singleton] at h
      omega
  cases hFe : fuelOf ((⟨[r], .dir⟩ : Entry) :: walkEntries [r] follow es0) with
  | zero => rw [hFe] at hF; omega
  | succ F =>
    have hFd : depthE es0 ≤ F := by rw [hFe] at hF; omega
    show FsTree.dir (buildE (fuelOf ((⟨[r], .dir⟩ : Entry) ::
      walkEntries [r] follow es0)) (⟨[r], .dir⟩ :: walkEntries [r] follow es0)) = _
    rw [hFe]
    simp only [buildE]
    have hlev : level ((⟨[r], .dir⟩ : Entry) :: walkEntries [r] follow es0) =
        [(r, .dir)] := by
      rw [hshift]
      have h0 := level_map_prepend r (walkEntries [] follow es0)
        (walkEntries_path_ne_nil follow es0)
      simp only [level, List.filterMap_cons] at h0 ⊢
      simp [h0]
    have hund : under r ((⟨[r], .dir⟩ : Entry) :: walkEntries [r] follow es0) =
        walkEntries [] follow es0 := by
      rw [hshift]
      simp only [under, List.filterMap_cons]
      exact under_map_same r _ (walkEntries_path_ne_nil follow es0)
    rw [hlev]
    simp only [buildLevel]
    rw [hund, buildE_walkEntries follow es0 F hn hd hFd]

/-- C2: for every archive method and every directory of regular files (no
symlinks, distinct names) at a valid source path, the fault-free run
succeeds, its sink is the method's framing of its entry stream, and a
standard reader extracting that entry stream recovers exactly the source
tree rooted at the source path's final component. -/
theorem C2_roundtrip_extract (m : ArchiveMethod) (dir : RustPath)
    (skip : Bool) (es0 : FsEntries) (f : OsStr) (s : String)
    (h1 : dir.file_name = some f) (h2 : f.to_str = some s)
    (h3 : dir.to_str.isSome = true)
    (hn : noSymlinksE es0 = true) (hd : distinctE es0 = true) :
    (m.create_archive dir skip (.dir es0) noFaults).result = .ok () ∧
    (m.create_archive dir skip (.dir es0) noFaults).sink =
      frameBytes m (methodEntries m s (.dir es0) skip) ∧
    extract (methodEntries m s (.dir es0) skip) =
      .dir (.cons s (.dir es0) .nil) := by
  have h := create_archive_noFaults m dir skip (.dir es0) f s h1 h2 h3
  rw [h]
  refine ⟨rfl, rfl, ?_⟩
  cases m
  · exact extract_walk (!skip) s es0 hn hd
  · exact extract_walk (!skip) s es0 hn hd
  · exact extract_walk false s es0 hn hd

/-- C2 witness: extracting the Tar entry stream of the concrete scenario's
directory at `a/b/c` recovers the directory rooted at `c`. -/
theorem C2_roundtrip_extract_witness :
    extract (methodEntries .Tar "c" c1Tree false) =
      .dir (.cons "c" c1Tree .nil) :=
  (C2_roundtrip_extract .Tar c1Dir false
    (.cons "e" (.file c1Content)
      (.cons "f" (.file c1Content)
        (.cons "g" (.file c1Content) .nil)))
    (.utf8 "c") "c" (by decide) (by decide) (by decide) (by decide)
    (by decide)).2.2
